import Mathlib

/-!
# Verification of the `cachestore` adapter

A shallow embedding of the `cachestore` package (`cache_store.go`,
`cache_config.go`): an adapter exposing the in-process expiring cache
`go-cache` through the raw byte-oriented store contract of
`keyvalstore/store`.

Modelling conventions:

* A Go byte is a `Nat` (< 256 at every value produced by the code).
* A Go `[]byte` is `GoBytes := Option (List Nat)`: `none` models a nil
  slice, `some l` a non-nil slice with contents `l`.  Keys are converted
  with `string(key)`, a bijection on contents, so keys are plain `Bytes`.
* The underlying engine (`go-cache`, an external collaborator, spec §6)
  is a finite map from keys to items `⟨object, expiration⟩`, modelled as
  an association list `CacheMap`; `expiration` is an absolute UnixNano
  instant, `0` meaning "no expiration".  `cache.Get` at time `now`
  reports a present entry as found unless `expiration > 0 ∧
  now > expiration`; `cache.Items()` skips expired entries the same way;
  `cache.Set` with duration `d` stores expiration `now + d` when `d > 0`
  and `0` otherwise (the adapter passes `NoExpiration` for ttl ≤ 0).
* Each adapter operation is a pure function from the cache map (and the
  current instant `now`, in nanoseconds) to its results and the new map.
  Mutator callbacks (`func(*store.RawEntry) bool`) become pure functions
  `RawEntry → Bool × RawEntry` returning the commit flag and the
  mutated entry.
* `cache.Items()` iteration order is arbitrary (Go map); theorems about
  enumeration therefore quantify over an arbitrary snapshot list.
-/

namespace Cachestore

/-- Go byte-string contents (each entry a byte value). -/
abbrev Bytes := List Nat

/-- A Go `[]byte`: `none` is the nil slice, `some l` a non-nil slice. -/
abbrev GoBytes := Option Bytes

/-- Go `len` of a `[]byte` (`len(nil) = 0`). -/
def goLen (v : GoBytes) : Nat := (v.getD []).length

/-- Go `strings.HasPrefix(s, pre)`: byte-wise prefix test. -/
def goHasPrefix : Bytes → Bytes → Bool
  | _, [] => true
  | [], _ :: _ => false
  | c :: cs, q :: qs => q == c && goHasPrefix cs qs

/-- Go string comparison `x <= y`: lexicographic on raw bytes, a proper
prefix comparing smaller. -/
def goLe : Bytes → Bytes → Bool
  | [], _ => true
  | _ :: _, [] => false
  | a :: as, b :: bs => if a = b then goLe as bs else decide (a < b)

/-- Cast `uint64 → int64` (two's complement reinterpretation). -/
def toInt64 (u : Nat) : Int :=
  if u < 2 ^ 63 then (u : Int) else (u : Int) - 2 ^ 64

/-- Cast `int64 → uint64`: the value modulo `2^64`, as a `Nat`. -/
def toUInt64 (i : Int) : Nat := (i % (2 ^ 64 : Int)).toNat

/-- Wrap an integer into `int64` range (Go signed addition wraps). -/
def wrapInt64 (i : Int) : Int := (i + 2 ^ 63) % 2 ^ 64 - 2 ^ 63

/-- `binary.BigEndian.PutUint64` into a fresh `make([]byte, 8)`:
`b[0] = byte(v >> 56), …, b[7] = byte(v)`. -/
def putUint64 (v : Nat) : List Nat :=
  [v >>> 56 % 256, v >>> 48 % 256, v >>> 40 % 256, v >>> 32 % 256,
   v >>> 24 % 256, v >>> 16 % 256, v >>> 8 % 256, v % 256]

/-- `binary.BigEndian.Uint64(b)`:
`uint64(b[7]) | uint64(b[6])<<8 | … | uint64(b[0])<<56` (callers guard
`len(b) >= 8`, so total `getD` access is safe). -/
def beUint64 (b : List Nat) : Nat :=
  b.getD 7 0 ||| b.getD 6 0 <<< 8 ||| b.getD 5 0 <<< 16 ||| b.getD 4 0 <<< 24 |||
    b.getD 3 0 <<< 32 ||| b.getD 2 0 <<< 40 ||| b.getD 1 0 <<< 48 ||| b.getD 0 0 <<< 56

/-- An entry of the underlying `go-cache` engine: the stored object
(always a `[]byte` when written through this adapter) and the absolute
expiration instant in UnixNano (`0` = no expiration). -/
structure Item where
  object : GoBytes
  expiration : Int
deriving DecidableEq

/-- The underlying engine's key space, as an association list with the
first binding of a key the authoritative one. -/
abbrev CacheMap := List (Bytes × Item)

/-- Raw map lookup (no expiration check). -/
def mapGet : CacheMap → Bytes → Option Item
  | [], _ => none
  | (k2, it) :: rest, k => if k2 = k then some it else mapGet rest k

/-- Raw map update: replace the binding of `k`, or append one. -/
def mapSet : CacheMap → Bytes → Item → CacheMap
  | [], k, it => [(k, it)]
  | (k2, it2) :: rest, k, it =>
      if k2 = k then (k, it) :: rest else (k2, it2) :: mapSet rest k it

/-- Whether an item is expired at instant `now`
(go-cache: `Expiration > 0 && now > Expiration`). -/
def expiredAt (it : Item) (now : Int) : Bool :=
  decide (0 < it.expiration) && decide (it.expiration < now)

/-- go-cache `Get` at instant `now`: the stored object of an unexpired
present key. -/
def cacheGet (m : CacheMap) (now : Int) (k : Bytes) : Option GoBytes :=
  match mapGet m k with
  | none => none
  | some it => if expiredAt it now then none else some it.object

/-- go-cache `Items()` at instant `now`: the unexpired entries, in the
(arbitrary) order of the underlying list. -/
def cacheItems (m : CacheMap) (now : Int) : List (Bytes × Item) :=
  m.filter fun kv => !expiredAt kv.2 now

/-- The expiration instant the adapter's writes install.  For
`ttlSeconds > 0` the adapter computes the duration
`time.Second * time.Duration(ttlSeconds)` — a *wrapping* `int64`
product — and go-cache stores `time.Now().Add(d).UnixNano()`, again a
wrapping `int64`, when the duration is still positive after the wrap;
a duration that wrapped to zero or below stores no expiration (a zero
duration is go-cache's `DefaultExpiration` sentinel, and this adapter's
default configuration leaves the engine's default expiration at "never";
a negative one skips the `d > 0` branch).  For `ttlSeconds ≤ 0` the
adapter passes `cache.NoExpiration` and go-cache stores `0`. -/
def setExpiration (now ttlSeconds : Int) : Int :=
  if 0 < ttlSeconds then
    let d := wrapInt64 (ttlSeconds * 1000000000)
    if 0 < d then wrapInt64 (now + d) else 0
  else 0

/-- The adapter's error values: `os.ErrNotExist` and `ErrCanceled`
(`cache_config.go`). -/
inductive Err where
  | notFound
  | canceled
deriving DecidableEq

/-- `store.RawEntry`: the record handed to `Update` mutators. -/
structure RawEntry where
  key : Bytes
  value : GoBytes
  ttl : Int
  version : Int
deriving DecidableEq

/-- Modelled from the spec: the constant `store.NoTTL` of the external
`keyvalstore/store` package, the "no TTL" default `UpdateRaw` installs
(spec §4.2); per spec §3 a TTL ≤ 0 means "no expiration", so it is taken
to be `0`.  No theorem below depends on its exact value. -/
def NoTTL : Int := 0

/-- The repeated read pattern of `getImpl`/`UpdateRaw`/`TouchRaw`:
`if obj, ok := cache.Get(key); ok && obj != nil { if b, ok := obj.([]byte); ok { val = b } }`.
Every object written through the adapter is a `[]byte` (possibly the nil
slice, which still makes the interface non-nil and the assertion
succeed), so the read yields the stored `GoBytes`, or `none` when the
key is absent or expired. -/
def readValue (m : CacheMap) (now : Int) (k : Bytes) : GoBytes :=
  (cacheGet m now k).getD none

/-- `getImpl(key, required)` (`cache_store.go:166`). -/
def getImpl (m : CacheMap) (now : Int) (key : Bytes) (required : Bool) :
    GoBytes × Option Err :=
  let val := readValue m now key
  if val = none ∧ required = true then (none, some Err.notFound) else (val, none)

/-- `GetRaw` (`cache_store.go:80`): delegates to `getImpl`; the
`ttlPtr`/`versionPtr` output pointers are ignored by the source. -/
def GetRaw (m : CacheMap) (now : Int) (key : Bytes) (required : Bool) :
    GoBytes × Option Err :=
  getImpl m now key required

/-- `SetRaw` (`cache_store.go:84`): unconditional write; the returned Go
error is always nil, so only the new map is returned. -/
def SetRaw (m : CacheMap) (now : Int) (key : Bytes) (value : GoBytes)
    (ttlSeconds : Int) : CacheMap :=
  mapSet m key ⟨value, setExpiration now ttlSeconds⟩

/-- The entry `UpdateRaw` constructs before invoking the mutator:
`Key = key`, `Ttl = store.NoTTL`, `Version = 0`, `Value` read from the
cache (nil when absent). -/
def updateEntry (m : CacheMap) (now : Int) (key : Bytes) : RawEntry :=
  { key := key, value := readValue m now key, ttl := NoTTL, version := 0 }

/-- `UpdateRaw` (`cache_store.go:111`): read-modify-write.  A mutator
returning `false` yields `ErrCanceled` with the map untouched; otherwise
the mutated `Value` is written back under the *original* `key` with the
mutated `Ttl`. -/
def UpdateRaw (m : CacheMap) (now : Int) (key : Bytes)
    (cb : RawEntry → Bool × RawEntry) : Option Err × CacheMap :=
  let r := cb (updateEntry m now key)
  if r.1 = false then (some Err.canceled, m)
  else (none, mapSet m key ⟨r.2.value, setExpiration now r.2.ttl⟩)

/-- The pre-increment counter `IncrementRaw`'s mutator computes: the
stored value decoded as big-endian `uint64` then cast to `int64` when it
holds at least 8 bytes, `initial` otherwise. -/
def incrementPrev (initial : Int) (v : GoBytes) : Int :=
  if 8 ≤ goLen v then toInt64 (beUint64 (v.getD [])) else initial

/-- The mutator `IncrementRaw` passes to `UpdateRaw`
(`cache_store.go:96`): decode, add `delta` (Go `int64` addition wraps),
re-encode into a fresh 8-byte slice, set `Ttl`, commit. -/
def incrementCb (initial delta ttlSeconds : Int) (entry : RawEntry) :
    Bool × RawEntry :=
  let counter := incrementPrev initial entry.value
  let counter2 := wrapInt64 (counter + delta)
  (true, { entry with value := some (putUint64 (toUInt64 counter2)),
                      ttl := ttlSeconds })

/-- `IncrementRaw` (`cache_store.go:95`): runs `UpdateRaw` with
`incrementCb`; the returned `prev` is the counter the mutator read from
the entry `UpdateRaw` handed it. -/
def IncrementRaw (m : CacheMap) (now : Int) (key : Bytes)
    (initial delta ttlSeconds : Int) : (Int × Option Err) × CacheMap :=
  let r := UpdateRaw m now key (incrementCb initial delta ttlSeconds)
  ((incrementPrev initial (updateEntry m now key).value, r.1), r.2)

/-- `CompareAndSetRaw` (`cache_store.go:138`):
`return true, t.SetRaw(ctx, key, value, ttlSeconds)` — the `version`
argument is never consulted. -/
def CompareAndSetRaw (m : CacheMap) (now : Int) (key : Bytes)
    (value : GoBytes) (ttlSeconds : Int) (version : Int) :
    (Bool × Option Err) × CacheMap :=
  ((true, none), SetRaw m now key value ttlSeconds)

/-- `TouchRaw` (`cache_store.go:142`): rewrite the current value (nil if
absent) with a fresh expiration. -/
def TouchRaw (m : CacheMap) (now : Int) (key : Bytes) (ttlSeconds : Int) :
    Option Err × CacheMap :=
  (none, mapSet m key ⟨readValue m now key, setExpiration now ttlSeconds⟩)

/-- `RemoveRaw` (`cache_store.go:161`). -/
def RemoveRaw (m : CacheMap) (key : Bytes) : Option Err × CacheMap :=
  (none, m.filter fun kv => !(kv.1 == key))

/-- The entry `doEnumerateRaw` builds for a matching key:
`Ttl = int(item.Expiration)`, `Version = item.Expiration`, `Value`
populated only when `onlyKeys` is false. -/
def mkEnumEntry (k : Bytes) (it : Item) (onlyKeys : Bool) : RawEntry :=
  { key := k, value := if onlyKeys then none else it.object,
    ttl := it.expiration, version := it.expiration }

/-- The `for key, item := range t.cache.Items()` loop body of
`doEnumerateRaw` (`cache_store.go:209`): the `[]byte` assertion always
succeeds for adapter-written objects, so a key is a candidate iff it has
the prefix and is ≥ `seek`; the callback's entries are the delivered
ones (a `false` return breaks after that delivery). -/
def enumLoop (items : List (Bytes × Item)) (prefixB seek : Bytes)
    (onlyKeys : Bool) (cb : RawEntry → Bool) : List RawEntry :=
  match items with
  | [] => []
  | (k, it) :: rest =>
    if goHasPrefix k prefixB && goLe seek k then
      let re := mkEnumEntry k it onlyKeys
      if cb re then re :: enumLoop rest prefixB seek onlyKeys cb else [re]
    else enumLoop rest prefixB seek onlyKeys cb

/-- `doEnumerateRaw` (`cache_store.go:204`), over a snapshot `items` of
`t.cache.Items()` in its (arbitrary) iteration order.  `batchSize` is
accepted and never used; the returned Go error is always nil. -/
def doEnumerateRaw (items : List (Bytes × Item)) (prefixB seek : Bytes)
    (batchSize : Int) (onlyKeys : Bool) (cb : RawEntry → Bool) :
    List RawEntry × Option Err :=
  (enumLoop items prefixB seek onlyKeys cb, none)

/-- The reverse delivery loop of `EnumerateRaw`
(`for j := n-1; j >= 0; j--`), fed the collected list already reversed. -/
def revDeliver (l : List RawEntry) (cb : RawEntry → Bool) : List RawEntry :=
  match l with
  | [] => []
  | e :: rest => if cb e then e :: revDeliver rest cb else [e]

/-- `EnumerateRaw` (`cache_store.go:182`): forward mode streams
`doEnumerateRaw` directly; reverse mode first materializes every
candidate (inner callback always `true`), then delivers back-to-front
until the caller's callback declines. -/
def EnumerateRaw (items : List (Bytes × Item)) (prefixB seek : Bytes)
    (batchSize : Int) (onlyKeys reverse : Bool) (cb : RawEntry → Bool) :
    List RawEntry × Option Err :=
  if reverse then
    let r := doEnumerateRaw items prefixB seek batchSize onlyKeys fun _ => true
    match r.2 with
    | some e => ([], some e)
    | none => (revDeliver r.1.reverse cb, none)
  else
    doEnumerateRaw items prefixB seek batchSize onlyKeys cb

/-- `DropWithPrefix` (`cache_store.go:248`): delete every key that
`t.cache.Items()` reports (present and unexpired at `now`) and that
starts with the prefix.  Expired entries are skipped by `Items()` and
therefore linger in the raw map (invisibly: every read also treats them
as absent). -/
def DropWithPrefix (m : CacheMap) (now : Int) (prefixB : Bytes) : CacheMap :=
  m.filter fun kv => !(goHasPrefix kv.1 prefixB && !expiredAt kv.2 now)

/-- `n` sequential `Increment(key, initial = 0, delta = 1, ttl = 0)`
calls, threading the store state. -/
def iterIncrement (now : Int) (k : Bytes) : Nat → CacheMap → CacheMap
  | 0, m => m
  | n + 1, m => (IncrementRaw (iterIncrement now k n m) now k 0 1 0).2

/-- The values returned by the `n` sequential increments of
`iterIncrement`, in call order. -/
def iterReturns (now : Int) (k : Bytes) : Nat → CacheMap → List Int
  | 0, _ => []
  | n + 1, m =>
    iterReturns now k n m ++ [(IncrementRaw (iterIncrement now k n m) now k 0 1 0).1.1]

/-! ## Helper lemmas -/

theorem mapGet_mapSet_self (m : CacheMap) (k : Bytes) (it : Item) :
    mapGet (mapSet m k it) k = some it := by
  induction m with
  | nil => simp [mapSet, mapGet]
  | cons kv rest ih =>
    obtain ⟨k1, it1⟩ := kv
    by_cases h : k1 = k
    · simp [mapSet, mapGet, h]
    · simp [mapSet, mapGet, h, ih]

theorem mapGet_mapSet_ne (m : CacheMap) (k k2 : Bytes) (it : Item)
    (h : k2 ≠ k) : mapGet (mapSet m k it) k2 = mapGet m k2 := by
  have h2 : k ≠ k2 := Ne.symm h
  induction m with
  | nil => simp [mapSet, mapGet, h2]
  | cons kv rest ih =>
    obtain ⟨k1, it1⟩ := kv
    by_cases hk : k1 = k
    · subst hk
      simp [mapSet, mapGet, h2]
    · simp [mapSet, mapGet, hk, ih]

theorem lor_two_pow_mul : ∀ (k a b : Nat), b < 2 ^ k → 2 ^ k * a ||| b = 2 ^ k * a + b := by
  intro k
  induction k with
  | zero =>
    intro a b hb
    have hb0 : b = 0 := by omega
    subst hb0
    simp
  | succ k ih =>
    intro a b hb
    obtain ⟨c, b2, rfl⟩ : ∃ c b2, Nat.bit c b2 = b :=
      ⟨b.testBit 0, b >>> 1, Nat.bit_testBit_zero_shiftRight_one b⟩
    have h2 : 2 ^ (k + 1) * a = Nat.bit false (2 ^ k * a) := by
      simp only [Nat.bit_val, Bool.toNat_false, Nat.pow_succ]
      ring
    have hb2 : b2 < 2 ^ k := by
      rw [Nat.bit_val, Nat.pow_succ] at hb
      cases c <;> simp at hb <;> omega
    rw [h2, Nat.lor_bit, ih a b2 hb2]
    cases c <;> simp [Nat.bit_val, Nat.pow_succ] <;> ring

theorem lor_shift (b a k : Nat) (hb : b < 2 ^ k) : b ||| a <<< k = b + a * 2 ^ k := by
  rw [Nat.shiftLeft_eq, Nat.lor_comm, Nat.mul_comm a, lor_two_pow_mul k a b hb]
  omega

theorem beUint64_putUint64 (x : Nat) (hx : x < 2 ^ 64) : beUint64 (putUint64 x) = x := by
  have h : beUint64 (putUint64 x)
      = x % 256 ||| (x >>> 8 % 256) <<< 8 ||| (x >>> 16 % 256) <<< 16 |||
          (x >>> 24 % 256) <<< 24 ||| (x >>> 32 % 256) <<< 32 ||| (x >>> 40 % 256) <<< 40 |||
          (x >>> 48 % 256) <<< 48 ||| (x >>> 56 % 256) <<< 56 := by rfl
  rw [h]
  simp only [Nat.shiftRight_eq_div_pow]
  rw [lor_shift _ _ 8 (by omega)]
  rw [lor_shift _ _ 16 (by norm_num; omega)]
  rw [lor_shift _ _ 24 (by norm_num; omega)]
  rw [lor_shift _ _ 32 (by norm_num; omega)]
  rw [lor_shift _ _ 40 (by norm_num; omega)]
  rw [lor_shift _ _ 48 (by norm_num; omega)]
  rw [lor_shift _ _ 56 (by norm_num; omega)]
  norm_num
  omega

theorem putUint64_length (x : Nat) : (putUint64 x).length = 8 := rfl

theorem wrapInt64_eq_self (x : Int) (h1 : -(2 ^ 63) ≤ x) (h2 : x < 2 ^ 63) :
    wrapInt64 x = x := by
  unfold wrapInt64
  omega

theorem setExpiration_fits (now ttl : Int) (hnow : 0 ≤ now) (h1 : 0 < ttl)
    (hfit : ttl * 1000000000 < 2 ^ 63)
    (hfit2 : now + ttl * 1000000000 < 2 ^ 63) :
    setExpiration now ttl = now + ttl * 1000000000 := by
  unfold setExpiration
  rw [if_pos h1]
  have hd : wrapInt64 (ttl * 1000000000) = ttl * 1000000000 :=
    wrapInt64_eq_self _ (by omega) hfit
  simp only [hd]
  rw [if_pos (by omega : (0 : Int) < ttl * 1000000000)]
  exact wrapInt64_eq_self _ (by omega) hfit2

theorem toUInt64_wrapInt64 (i : Int) : toUInt64 (wrapInt64 i) = toUInt64 i := by
  unfold toUInt64 wrapInt64
  congr 1
  omega

theorem toUInt64_ofNat (n : Nat) (h : n < 2 ^ 64) : toUInt64 (n : Int) = n := by
  unfold toUInt64
  omega

theorem toInt64_small (u : Nat) (h : u < 2 ^ 63) : toInt64 u = (u : Int) := by
  unfold toInt64
  simp only [if_pos h]

/-! ## Claim theorems -/

/-- **C1 (counterexample).** The claim fails as stated: with
`ttlSeconds = 2·10¹⁰` the Go `int64` product `time.Second * ttlSeconds`
wraps to a *positive* ≈49.2-year duration (1553255926290448384 ns), so at
the representable instant 1553255926290448385 — far before the claimed
expiry of `now + ttl` seconds = 2·10¹⁹ ns — `Get` already behaves as
absent (nil without `required`, Not-Found with it) instead of returning
the value. -/
theorem setRaw_ttl_wrap_counterexample :
    getImpl (SetRaw [] 0 [1] (some [7]) 20000000000) 1553255926290448385 [1] false
      = (none, none) ∧
    getImpl (SetRaw [] 0 [1] (some [7]) 20000000000) 1553255926290448385 [1] true
      = (none, some Err.notFound) ∧
    (1553255926290448385 : Int) < 0 + 20000000000 * 1000000000 :=
  ⟨by decide, by decide, by decide⟩

/-- **C1 (amended).** For every key `k`, value `v` and integer `ttl` whose
nanosecond translation stays in `int64` range (`ttl·10⁹ < 2⁶³` and
`now + ttl·10⁹ < 2⁶³`, `now` a nonnegative UnixNano instant),
`Set(k, v, ttl)` then `Get(k)` returns `v`: with `ttl ≤ 0` at every later
instant (no expiration); with `ttl > 0` up to `ttl` seconds after the
`Set`, behaving as absent strictly afterwards.  Beyond that range the
`int64` arithmetic wraps and the expiry instant is the wrapped value
(`setRaw_ttl_wrap_counterexample`). -/
theorem setRaw_then_getImpl (m : CacheMap) (now tGet ttl : Int) (k : Bytes)
    (v : GoBytes) (hnow : 0 ≤ now)
    (hfit : ttl * 1000000000 < 2 ^ 63)
    (hfit2 : now + ttl * 1000000000 < 2 ^ 63) :
    (ttl ≤ 0 → getImpl (SetRaw m now k v ttl) tGet k false = (v, none)) ∧
    (0 < ttl → tGet ≤ now + ttl * 1000000000 →
      getImpl (SetRaw m now k v ttl) tGet k false = (v, none)) ∧
    (0 < ttl → now + ttl * 1000000000 < tGet →
      getImpl (SetRaw m now k v ttl) tGet k false = (none, none) ∧
      getImpl (SetRaw m now k v ttl) tGet k true = (none, some Err.notFound)) := by
  refine ⟨fun h => ?_, fun h1 h2 => ?_, fun h1 h2 => ?_⟩
  · have he : expiredAt ⟨v, setExpiration now ttl⟩ tGet = false := by
      simp only [expiredAt, setExpiration, if_neg (by omega : ¬ 0 < ttl)]
      simp
    simp [getImpl, readValue, cacheGet, SetRaw, mapGet_mapSet_self, he]
  · have he : expiredAt ⟨v, setExpiration now ttl⟩ tGet = false := by
      rw [setExpiration_fits now ttl hnow h1 hfit hfit2]
      simp only [expiredAt, Bool.and_eq_false_iff, decide_eq_false_iff_not, not_lt]
      omega
    simp [getImpl, readValue, cacheGet, SetRaw, mapGet_mapSet_self, he]
  · have he : expiredAt ⟨v, setExpiration now ttl⟩ tGet = true := by
      rw [setExpiration_fits now ttl hnow h1 hfit hfit2]
      simp only [expiredAt, Bool.and_eq_true, decide_eq_true_eq]
      omega
    constructor <;>
      simp [getImpl, readValue, cacheGet, SetRaw, mapGet_mapSet_self, he]

theorem setRaw_then_getImpl_witness :
    getImpl (SetRaw [] 0 [1] (some [7]) 0) 999 [1] false = (some [7], none) ∧
    getImpl (SetRaw [] 0 [1] (some [7]) 5) 3 [1] false = (some [7], none) ∧
    getImpl (SetRaw [] 0 [1] (some [7]) 5) (6 * 1000000000) [1] true =
      (none, some Err.notFound) :=
  ⟨(setRaw_then_getImpl [] 0 999 0 [1] (some [7]) (by decide) (by decide)
      (by decide)).1 (by decide),
   (setRaw_then_getImpl [] 0 3 5 [1] (some [7]) (by decide) (by decide)
      (by decide)).2.1 (by decide) (by decide),
   ((setRaw_then_getImpl [] 0 (6 * 1000000000) 5 [1] (some [7]) (by decide)
      (by decide) (by decide)).2.2 (by decide) (by decide)).2⟩

/-- **C2.** If the mutator passed to `Update(k, mutator)` returns `false` on
the entry `UpdateRaw` hands it, the operation fails with `ErrCanceled` and
the store's state is returned completely unchanged (in particular the value
under `k`). -/
theorem updateRaw_canceled (m : CacheMap) (now : Int) (k : Bytes)
    (cb : RawEntry → Bool × RawEntry)
    (h : (cb (updateEntry m now k)).1 = false) :
    UpdateRaw m now k cb = (some Err.canceled, m) := by
  simp [UpdateRaw, h]

theorem updateRaw_canceled_witness :
    UpdateRaw [([2], ⟨some [9], 0⟩)] 0 [2] (fun e => (false, e)) =
      (some Err.canceled, [([2], ⟨some [9], 0⟩)]) :=
  updateRaw_canceled _ 0 [2] _ rfl

/-- **C4.** `CompareAndSet` performs the write unconditionally and reports
success (`true` with a nil error) for every input, never consulting
`version`: its effect on the store is exactly `Set(key, value, ttlSeconds)`. -/
theorem compareAndSetRaw_is_setRaw (m : CacheMap) (now : Int) (k : Bytes)
    (v : GoBytes) (ttl ver : Int) :
    CompareAndSetRaw m now k v ttl ver = ((true, none), SetRaw m now k v ttl) := rfl

/-- **C7.** For a key never set (absent from the underlying map),
`Get(k, required = true)` fails with the Not-Found error and
`Get(k, required = false)` returns a nil value with no error. -/
theorem getRaw_absent (m : CacheMap) (now : Int) (k : Bytes)
    (h : mapGet m k = none) :
    GetRaw m now k true = (none, some Err.notFound) ∧
    GetRaw m now k false = (none, none) := by
  simp [GetRaw, getImpl, readValue, cacheGet, h]

theorem getRaw_absent_witness :
    GetRaw [] 0 [5] true = (none, some Err.notFound) ∧
    GetRaw [] 0 [5] false = (none, none) :=
  getRaw_absent [] 0 [5] rfl

/-- **C8 (counterexample).** A key present in the underlying engine with a
nil byte value: `getImpl` with `required = true` *does* fail with the
Not-Found error, so the claim that such a key is treated as present is
false. -/
theorem getImpl_nil_value_counterexample :
    mapGet (SetRaw [] 0 [1] none 0) [1] = some ⟨none, 0⟩ ∧
    getImpl (SetRaw [] 0 [1] none 0) 0 [1] true = (none, some Err.notFound) :=
  ⟨rfl, rfl⟩

/-- **C8 (amended).** A key whose unexpired stored value is a non-nil byte
slice (possibly empty) is treated as existing: `Get(required = true)`
returns it with no error.  A key whose read yields a nil value — absent,
expired, or present but stored with a nil slice — is treated as absent:
`Get(required = true)` fails with the Not-Found error. -/
theorem getImpl_presentness (m : CacheMap) (now : Int) (k : Bytes) :
    (∀ bs : Bytes, readValue m now k = some bs →
      getImpl m now k true = (some bs, none) ∧
      getImpl m now k false = (some bs, none)) ∧
    (readValue m now k = none →
      getImpl m now k true = (none, some Err.notFound)) := by
  constructor
  · intro bs h
    constructor <;> simp [getImpl, h]
  · intro h
    simp [getImpl, h]

theorem getImpl_presentness_witness :
    getImpl (SetRaw [] 0 [1] (some []) 0) 0 [1] true = (some [], none) ∧
    getImpl (SetRaw [] 0 [1] none 0) 0 [1] true = (none, some Err.notFound) :=
  ⟨((getImpl_presentness (SetRaw [] 0 [1] (some []) 0) 0 [1]).1 [] rfl).1,
   (getImpl_presentness (SetRaw [] 0 [1] none 0) 0 [1]).2 rfl⟩

/-- **C10.** A committing `Update(k, mutator)` writes only under the key
`k` passed to `Update` — the mutator's modification of the entry's `Key`
field is ignored for addressing — and every key other than `k` keeps its
previous binding. -/
theorem updateRaw_commits_under_key (m : CacheMap) (now : Int) (k : Bytes)
    (cb : RawEntry → Bool × RawEntry)
    (h : (cb (updateEntry m now k)).1 = true) :
    UpdateRaw m now k cb =
      (none, mapSet m k ⟨(cb (updateEntry m now k)).2.value,
        setExpiration now (cb (updateEntry m now k)).2.ttl⟩) ∧
    mapGet (UpdateRaw m now k cb).2 k =
      some ⟨(cb (updateEntry m now k)).2.value,
        setExpiration now (cb (updateEntry m now k)).2.ttl⟩ ∧
    ∀ k2, k2 ≠ k → mapGet (UpdateRaw m now k cb).2 k2 = mapGet m k2 := by
  have h1 : UpdateRaw m now k cb =
      (none, mapSet m k ⟨(cb (updateEntry m now k)).2.value,
        setExpiration now (cb (updateEntry m now k)).2.ttl⟩) := by
    simp [UpdateRaw, h]
  refine ⟨h1, ?_, ?_⟩
  · rw [h1]
    exact mapGet_mapSet_self m k _
  · intro k2 hk2
    rw [h1]
    exact mapGet_mapSet_ne m k k2 _ hk2

theorem updateRaw_commits_under_key_witness :
    UpdateRaw [] 0 [1] (fun _ => (true, ⟨[9], some [5], 0, 0⟩)) =
      (none, [([1], ⟨some [5], 0⟩)]) ∧
    mapGet (UpdateRaw [] 0 [1] (fun _ => (true, ⟨[9], some [5], 0, 0⟩))).2 [9] = none := by
  have h := updateRaw_commits_under_key [] 0 [1]
    (fun _ => (true, ⟨[9], some [5], 0, 0⟩)) rfl
  exact ⟨by rw [h.1]; rfl, (h.2.2 [9] (by decide)).trans rfl⟩

/-! ## Enumeration lemmas -/

theorem revDeliver_true (l : List RawEntry) : revDeliver l (fun _ => true) = l := by
  induction l with
  | nil => rfl
  | cons e rest ih => simp [revDeliver, ih]

theorem enumLoop_true_keys (items : List (Bytes × Item)) (p s : Bytes) (ok : Bool) :
    (enumLoop items p s ok fun _ => true).map RawEntry.key =
      (items.map Prod.fst).filter fun k2 => goHasPrefix k2 p && goLe s k2 := by
  induction items with
  | nil => rfl
  | cons kv rest ih =>
    obtain ⟨k, it⟩ := kv
    by_cases h : (goHasPrefix k p && goLe s k) = true
    · simp [enumLoop, h, mkEnumEntry, ih]
    · simp [enumLoop, h, ih]

theorem enumLoop_nil (items : List (Bytes × Item)) (p s : Bytes) (ok : Bool)
    (cb : RawEntry → Bool)
    (h : ∀ kv ∈ items, (goHasPrefix kv.1 p && goLe s kv.1) = false) :
    enumLoop items p s ok cb = [] := by
  induction items with
  | nil => rfl
  | cons kv rest ih =>
    have h1 := h kv (by simp)
    simp only [enumLoop, h1]
    exact ih fun kv2 hkv2 => h kv2 (by simp [hkv2])

theorem expiredAt_mono (it : Item) (t1 t2 : Int) (h : t1 ≤ t2)
    (he : expiredAt it t1 = true) : expiredAt it t2 = true := by
  simp only [expiredAt, Bool.and_eq_true, decide_eq_true_eq] at he ⊢
  omega

/-- **C5.** For every snapshot of the key space, the entries a full
forward enumeration delivers are exactly the keys that start with the
prefix (byte-wise) and are ≥ `seek` (lexicographically), in snapshot
order; the error is always nil; `batchSize` has no effect whatsoever on
delivery; and zero matches yield an empty delivery with no error. -/
theorem enumerateRaw_candidates (items : List (Bytes × Item))
    (prefixB seek : Bytes) (b1 b2 : Int) (onlyKeys : Bool) :
    ((doEnumerateRaw items prefixB seek b1 onlyKeys fun _ => true).1.map RawEntry.key =
      (items.map Prod.fst).filter fun k2 => goHasPrefix k2 prefixB && goLe seek k2) ∧
    (doEnumerateRaw items prefixB seek b1 onlyKeys fun _ => true).2 = none ∧
    (∀ (reverse : Bool) (cb : RawEntry → Bool),
      EnumerateRaw items prefixB seek b1 onlyKeys reverse cb =
        EnumerateRaw items prefixB seek b2 onlyKeys reverse cb) ∧
    ((items.map Prod.fst).filter (fun k2 => goHasPrefix k2 prefixB && goLe seek k2) = [] →
      ∀ (reverse : Bool) (cb : RawEntry → Bool),
        EnumerateRaw items prefixB seek b1 onlyKeys reverse cb = ([], none)) := by
  refine ⟨enumLoop_true_keys items prefixB seek onlyKeys, rfl, fun reverse cb => rfl,
    fun hempty reverse cb => ?_⟩
  have hall : ∀ kv ∈ items, (goHasPrefix kv.1 prefixB && goLe seek kv.1) = false := by
    intro kv hkv
    have hm : kv.1 ∈ items.map Prod.fst := List.mem_map_of_mem Prod.fst hkv
    have := List.filter_eq_nil_iff.mp hempty kv.1 hm
    simpa using this
  cases reverse with
  | false => simp [EnumerateRaw, doEnumerateRaw, enumLoop_nil items _ _ _ _ hall]
  | true => simp [EnumerateRaw, doEnumerateRaw, enumLoop_nil items _ _ _ _ hall, revDeliver]

theorem enumerateRaw_candidates_witness :
    EnumerateRaw [([1, 2], ⟨some [5], 0⟩)] [9] [] 0 false false (fun _ => true) =
      ([], none) :=
  (enumerateRaw_candidates [([1, 2], ⟨some [5], 0⟩)] [9] [] 0 0 false).2.2.2
    (by decide) false (fun _ => true)

/-- **C6.** Over an identical snapshot (same key space, same iteration
order), the sequence a full reverse-mode enumeration delivers is the
exact reverse of the full forward-mode sequence: reverse mode first
materializes all forward candidates, then visits them back-to-front. -/
theorem enumerateRaw_reverse (items : List (Bytes × Item))
    (prefixB seek : Bytes) (bs : Int) (onlyKeys : Bool) :
    EnumerateRaw items prefixB seek bs onlyKeys true (fun _ => true) =
      ((EnumerateRaw items prefixB seek bs onlyKeys false fun _ => true).1.reverse,
        none) := by
  simp [EnumerateRaw, doEnumerateRaw, revDeliver_true]

/-- **C9.** `DropWithPrefix(p)` deletes exactly the keys of the engine's
key space that start with `p` — the key space afterwards (at any instant
`now2 ≥ now`) is exactly the previous key space minus the prefixed keys —
and a subsequent `Enumerate` with prefix `p`, whatever its `seek`,
`batchSize`, `onlyKeys`, direction or callback, delivers nothing with no
error. -/
theorem dropWithPrefix_spec (m : CacheMap) (now now2 : Int) (p : Bytes)
    (h : now ≤ now2) :
    cacheItems (DropWithPrefix m now p) now2 =
      (cacheItems m now2).filter (fun kv => !goHasPrefix kv.1 p) ∧
    (∀ (seek : Bytes) (bs : Int) (onlyKeys reverse : Bool) (cb : RawEntry → Bool),
      EnumerateRaw (cacheItems (DropWithPrefix m now p) now2) p seek bs onlyKeys
        reverse cb = ([], none)) := by
  have hpt : ∀ kv : Bytes × Item,
      ((!expiredAt kv.2 now2) && !(goHasPrefix kv.1 p && !expiredAt kv.2 now)) =
        ((!goHasPrefix kv.1 p) && !expiredAt kv.2 now2) := by
    intro kv
    have hmono := expiredAt_mono kv.2 now now2 h
    cases hp : goHasPrefix kv.1 p <;>
      cases he1 : expiredAt kv.2 now <;>
        cases he2 : expiredAt kv.2 now2 <;> simp_all
  have h1 : cacheItems (DropWithPrefix m now p) now2 =
      (cacheItems m now2).filter (fun kv => !goHasPrefix kv.1 p) := by
    unfold cacheItems DropWithPrefix
    rw [List.filter_filter, List.filter_filter]
    exact List.filter_congr fun kv _ => hpt kv
  refine ⟨h1, fun seek bs onlyKeys reverse cb => ?_⟩
  have hall : ∀ kv ∈ cacheItems (DropWithPrefix m now p) now2,
      (goHasPrefix kv.1 p && goLe seek kv.1) = false := by
    intro kv hkv
    rw [h1] at hkv
    have := List.of_mem_filter hkv
    simp only [Bool.not_eq_true'] at this
    simp [this]
  cases reverse with
  | false => simp [EnumerateRaw, doEnumerateRaw, enumLoop_nil _ _ _ _ _ hall]
  | true => simp [EnumerateRaw, doEnumerateRaw, enumLoop_nil _ _ _ _ _ hall, revDeliver]

theorem dropWithPrefix_spec_witness :
    EnumerateRaw
      (cacheItems (DropWithPrefix [([1, 2], ⟨some [5], 0⟩), ([2], ⟨some [6], 0⟩)] 0 [1]) 0)
      [1] [] 0 false false (fun _ => true) = ([], none) :=
  (dropWithPrefix_spec [([1, 2], ⟨some [5], 0⟩), ([2], ⟨some [6], 0⟩)] 0 0 [1]
    (by decide)).2 [] 0 false false (fun _ => true)

/-! ## Increment lemmas -/

theorem incrementRaw_eq (m : CacheMap) (now : Int) (k : Bytes)
    (initial delta ttlSeconds : Int) :
    IncrementRaw m now k initial delta ttlSeconds =
      ((incrementPrev initial (readValue m now k), none),
        mapSet m k
          ⟨some (putUint64 (toUInt64
              (wrapInt64 (incrementPrev initial (readValue m now k) + delta)))),
            setExpiration now ttlSeconds⟩) := by
  simp [IncrementRaw, UpdateRaw, incrementCb, updateEntry]

theorem iterIncrement_mapGet (now : Int) (k : Bytes) (m : CacheMap)
    (hm : mapGet m k = none) :
    ∀ n : Nat, n ≤ 2 ^ 63 →
      mapGet (iterIncrement now k n m) k =
        if n = 0 then none else some ⟨some (putUint64 n), 0⟩ := by
  intro n
  induction n with
  | zero =>
    intro _
    simpa [iterIncrement] using hm
  | succ n ih =>
    intro hn
    have hn2 : n ≤ 2 ^ 63 := by omega
    have hprev : incrementPrev 0 (readValue (iterIncrement now k n m) now k)
        = (n : Int) := by
      rcases Nat.eq_zero_or_pos n with h0 | hpos
      · subst h0
        have hg : mapGet (iterIncrement now k 0 m) k = none := by
          simpa [iterIncrement] using hm
        simp [incrementPrev, readValue, cacheGet, hg, goLen]
      · have hget : mapGet (iterIncrement now k n m) k =
            some ⟨some (putUint64 n), 0⟩ := by
          rw [ih hn2, if_neg (by omega)]
        have hn3 : n < 2 ^ 63 := by omega
        have hbe : beUint64 (putUint64 n) = n :=
          beUint64_putUint64 n (lt_trans hn3 (by norm_num))
        have hlen : goLen (some (putUint64 n)) = 8 := by
          simp [goLen, putUint64_length]
        simp [incrementPrev, readValue, cacheGet, hget, expiredAt, hlen, hbe,
          toInt64_small n hn3]
    show mapGet (IncrementRaw (iterIncrement now k n m) now k 0 1 0).2 k = _
    rw [incrementRaw_eq]
    simp only [mapGet_mapSet_self, hprev]
    have hcast : toUInt64 (wrapInt64 ((n : Int) + 1)) = n + 1 := by
      rw [toUInt64_wrapInt64]
      have hc : ((n : Int) + 1) = ((n + 1 : Nat) : Int) := by push_cast; ring
      rw [hc, toUInt64_ofNat _ (lt_of_le_of_lt (by omega : n + 1 ≤ 2 ^ 63) (by norm_num))]
    rw [hcast, if_neg (by omega : ¬ n + 1 = 0)]
    norm_num [setExpiration]

theorem iterReturns_eq (now : Int) (k : Bytes) (m : CacheMap)
    (hm : mapGet m k = none) :
    ∀ n : Nat, n ≤ 2 ^ 63 →
      iterReturns now k n m = (List.range n).map Int.ofNat := by
  intro n
  induction n with
  | zero => intro _; rfl
  | succ n ih =>
    intro hn
    have hn2 : n ≤ 2 ^ 63 := by omega
    have hprev : incrementPrev 0 (readValue (iterIncrement now k n m) now k)
        = (n : Int) := by
      rcases Nat.eq_zero_or_pos n with h0 | hpos
      · subst h0
        have hg : mapGet (iterIncrement now k 0 m) k = none := by
          simpa [iterIncrement] using hm
        simp [incrementPrev, readValue, cacheGet, hg, goLen]
      · have hget : mapGet (iterIncrement now k n m) k =
            some ⟨some (putUint64 n), 0⟩ := by
          rw [iterIncrement_mapGet now k m hm n hn2, if_neg (by omega)]
        have hn3 : n < 2 ^ 63 := by omega
        have hbe : beUint64 (putUint64 n) = n :=
          beUint64_putUint64 n (lt_trans hn3 (by norm_num))
        have hlen : goLen (some (putUint64 n)) = 8 := by
          simp [goLen, putUint64_length]
        simp [incrementPrev, readValue, cacheGet, hget, expiredAt, hlen, hbe,
          toInt64_small n hn3]
    show iterReturns now k n m ++
        [(IncrementRaw (iterIncrement now k n m) now k 0 1 0).1.1] = _
    rw [ih hn2, incrementRaw_eq]
    simp only [hprev]
    rw [List.range_succ, List.map_append]
    rfl

/-- **C3.** `Increment(k, initial, delta, ttlSeconds)` reads the current
stored value as an 8-byte big-endian unsigned integer — defaulting to
`initial` when the key is absent or its value holds fewer than 8 bytes
(`incrementPrev`) — adds `delta`, writes the sum back as exactly 8
big-endian bytes under `k` with the given TTL, and returns the
pre-increment value; consequently `n` sequential
`Increment(k, initial = 0, delta = 1)` calls on a fresh key return
`0, 1, …, n-1` and leave a stored value encoding `n` (for `n` within
`int64` range). -/
theorem incrementRaw_spec (now : Int) (k : Bytes) :
    (∀ (m : CacheMap) (initial delta ttlSeconds : Int),
      IncrementRaw m now k initial delta ttlSeconds =
        ((incrementPrev initial (readValue m now k), none),
          mapSet m k
            ⟨some (putUint64
                (((incrementPrev initial (readValue m now k) + delta) %
                  (2 ^ 64 : Int)).toNat)),
              setExpiration now ttlSeconds⟩)) ∧
    (∀ x : Nat, (putUint64 x).length = 8) ∧
    (∀ (m : CacheMap) (n : Nat), mapGet m k = none → n ≤ 2 ^ 63 →
      iterReturns now k n m = (List.range n).map Int.ofNat ∧
      (1 ≤ n →
        mapGet (iterIncrement now k n m) k = some ⟨some (putUint64 n), 0⟩)) := by
  refine ⟨fun m initial delta ttlSeconds => ?_, putUint64_length,
    fun m n hm hn => ⟨iterReturns_eq now k m hm n hn, fun h1 => ?_⟩⟩
  · rw [incrementRaw_eq]
    rw [toUInt64_wrapInt64]
    rfl
  · rw [iterIncrement_mapGet now k m hm n hn, if_neg (by omega)]

theorem incrementRaw_spec_witness :
    iterReturns 5 [1] 3 [] = [0, 1, 2] ∧
    mapGet (iterIncrement 5 [1] 3 []) [1] = some ⟨some (putUint64 3), 0⟩ := by
  have h := (incrementRaw_spec 5 [1]).2.2 [] 3 rfl (by decide)
  refine ⟨?_, h.2 (by decide)⟩
  rw [h.1]
  rfl

end Cachestore
